import Mathlib

/-!
Verification development for the `ftpclient` repository (Qt/libcurl FTP client).

The repository's core logic is shallowly embedded here:

* the FTP `LIST`-output decoders of `MainWindow::parseFtpList`
  (src/mainwindow.cpp, lines 392-509) and of the two download planners
  (`MainWindow::listDirectoryForDownload`, src/mainwindow.cpp lines 1015-1193,
  and `FtpClient::listDirectoryForDownload`, src/ftpclient.cpp lines 306-505);
* the recursive directory-download planner of `MainWindow` (task-queue
  construction order);
* `getParentDirectory` (identical in src/mainwindow.cpp lines 212-238 and
  src/ftpclient.cpp lines 523-549);
* the navigation-state effects of `MainWindow::listDirectory`
  (src/mainwindow.cpp lines 296-384);
* the cancel handler installed by `MainWindow::onDownloadButtonClicked`
  (src/mainwindow.cpp lines 734-745);
* the progress-callback discipline of `FtpClient::DownloadCallback`
  (src/ftpclient.cpp lines 582-603).

Strings are embedded as `List Char` (`QString` is a sequence of UTF-16 code
units; for the code points manipulated here the two views agree).  The three
`QRegularExpression` patterns used by every parsing path,

  unixRe    = ([d-])([rwx-]{9})\s+(\d+)\s+(\w+)\s+(\w+)\s+(\d+)\s+(\w+\s+\d+\s+[\d:]+)\s+(.+)
  windowsRe = (\d{2}-\d{2}-\d{2})\s+(\d{2}:\d{2}[AP]M)\s+(<DIR>|\d+)\s+(.+)
  simpleRe  = ([d-])[^\s]+\s+.*\s+(.+)$

are embedded as deterministic matchers.  `QRegularExpression::match` performs
an unanchored PCRE search: start offsets are tried left to right, and at each
offset greedy quantifiers backtrack.  In these three patterns every pair of
adjacent quantified character classes is disjoint (e.g. `\d+` next to `\s+`),
so at a fixed start offset greedy matching is maximal-munch and never needs
to backtrack across those class boundaries; the only genuine backtracking is

  * in the common tail `\s+(.+)` when the subject ends in whitespace (PCRE
    then gives back one whitespace character to let `(.+)` match it), and
  * in simpleRe's `\s+.*\s+(.+)$`, where the greedy `.*` pushes the final
    `\s+(.+)` to the last whitespace position that still leaves a character.

Both are implemented explicitly below (`wsName`, `simpleTail`).  Lines are
produced by splitting on '\n', so the embedded matchers do not model the
PCRE corner cases for subjects that themselves contain '\n'.
-/

/-- Strings of the embedded program: a `QString` as its character sequence. -/
abbrev Str := List Char

/-- The FTP transport collaborator, abstracted: maps a normalized directory
path to the raw `LIST` response text, or `none` for a transport error
(`curl_easy_perform` alias `CURLE_OK` failure). -/
abbrev Transport := Str → Option Str

/-- PCRE character class `\s` (default, no UCP): space, \t, \n, \v, \f, \r. -/
def isSpacePCRE (c : Char) : Bool :=
  c = ' ' || c = '\t' || c = '\n' || c = '\x0b' || c = '\x0c' || c = '\r'

/-- `QChar::isSpace` (used by `QString::trimmed`): the PCRE set plus the
Unicode separator characters. -/
def isSpaceQt (c : Char) : Bool :=
  isSpacePCRE c || c = '\u0085' || c = '\u00A0' || c = '\u1680' ||
  ('\u2000' ≤ c && c ≤ '\u200A') || c = '\u2028' || c = '\u2029' ||
  c = '\u202F' || c = '\u205F' || c = '\u3000'

/-- PCRE class `\d`. -/
def isDigitC (c : Char) : Bool := '0' ≤ c && c ≤ '9'

/-- PCRE class `\w` (default, no UCP): ASCII letters, digits, underscore. -/
def isWordC (c : Char) : Bool :=
  ('a' ≤ c && c ≤ 'z') || ('A' ≤ c && c ≤ 'Z') || isDigitC c || c = '_'

/-- The character class `[rwx-]` of unixRe's permission field. -/
def isRwxDash (c : Char) : Bool := c = 'r' || c = 'w' || c = 'x' || c = '-'

/-- Last character of a string, if any (`QString::endsWith` probe). -/
def lastCh (s : Str) : Option Char := s.reverse.head?

/-- `QString::endsWith(c)`. -/
def endsWith (s : Str) (c : Char) : Bool := lastCh s == some c

/-- `QString::remove('\r')`: delete every carriage return. -/
def removeCR (s : Str) : Str := s.filter (fun c => !(c = '\r'))

/-- `QString::trimmed`: strip leading and trailing `QChar::isSpace`
characters. -/
def qtTrim (s : Str) : Str :=
  ((s.dropWhile isSpaceQt).reverse.dropWhile isSpaceQt).reverse

/-- Split on every character satisfying `p`, keeping empty pieces
(auxiliary for the two splitting operations of the source). -/
def splitAux (p : Char → Bool) : Str → List Str
  | [] => [[]]
  | c :: cs =>
    if p c then [] :: splitAux p cs
    else
      match splitAux p cs with
      | [] => [[c]]
      | t :: ts => (c :: t) :: ts

/-- `QString::split("\n", Qt::SkipEmptyParts)`. -/
def splitLines (s : Str) : List Str :=
  (splitAux (fun c => c = '\n') s).filter (fun t => !t.isEmpty)

/-- `QString::split(QRegularExpression("\\s+"), Qt::SkipEmptyParts)`:
splitting on every whitespace character and dropping empty pieces yields
exactly the maximal non-whitespace runs. -/
def splitWs (s : Str) : List Str :=
  (splitAux isSpacePCRE s).filter (fun t => !t.isEmpty)

/-- `name.contains(".")`. -/
def hasDot (s : Str) : Bool := s.contains '.'

/-- Decimal value of an all-digit capture. -/
def digitsVal (s : Str) : Nat := s.foldl (fun a c => a * 10 + (c.toNat - '0'.toNat)) 0

/-- `QString::toLongLong` as applied to the all-digit size captures of the
regexes: the decimal value, or 0 on `qint64` overflow. -/
def qToLL (s : Str) : Int :=
  if s = [] then 0
  else if digitsVal s ≤ 9223372036854775807 then (digitsVal s : Int) else 0

/-- Maximal munch of at least one character of class `p` (PCRE `p+` where the
following pattern element is disjoint from `p`). -/
def munch1 (p : Char → Bool) : Str → Option (Str × Str)
  | [] => none
  | c :: cs =>
    if p c then
      some (c :: (cs.span p).1, (cs.span p).2)
    else none

/-- Exactly `n` characters of class `p` (PCRE `p{n}`). -/
def takeCount : Nat → (Char → Bool) → Str → Option (Str × Str)
  | 0, _, s => some ([], s)
  | _ + 1, _, [] => none
  | n + 1, p, c :: cs =>
    if p c then (takeCount n p cs).map (fun t => (c :: t.1, t.2)) else none

/-- One literal character. -/
def expectChar (c : Char) : Str → Option Str
  | [] => none
  | d :: ds => if d = c then some ds else none

/-- The PCRE tail `\s+(.+)` (end of all three patterns): greedy `\s+`, then
greedy `(.+)` (`.` excludes '\n'), preferring a longer `\s+`; when the
subject ends in whitespace, PCRE gives characters back to `\s+` until `(.+)`
can take one.  Returns the `(.+)` capture. -/
def wsName : Str → Option Str
  | [] => none
  | c :: cs =>
    if isSpacePCRE c then
      match wsName cs with
      | some n => some n
      | none =>
        match cs with
        | [] => none
        | d :: _ => if d = '\n' then none else some (cs.takeWhile (fun x => !(x = '\n')))
    else none

/-- Index of the last character of class `p`, if any
(`QString::lastIndexOf` generalized to a class). -/
def lastIdxP (p : Char → Bool) : Str → Option Nat
  | [] => none
  | c :: cs =>
    match lastIdxP p cs with
    | some i => some (i + 1)
    | none => if p c then some 0 else none

/-- Captures of unixRe
`([d-])([rwx-]{9})\s+(\d+)\s+(\w+)\s+(\w+)\s+(\d+)\s+(\w+\s+\d+\s+[\d:]+)\s+(.+)`. -/
structure UnixCaps where
  typ : Char
  perm : Str
  links : Str
  owner : Str
  grp : Str
  size : Str
  date : Str
  name : Str
deriving Repr, DecidableEq

/-- unixRe fields `([rwx-]{9})\s+(\d+)\s+(\w+)\s+(\w+)\s+`: permissions,
links, owner, group, and the remainder. -/
def unixFields1 (cs : Str) : Option (Str × Str × Str × Str × Str) := do
  let perm ← takeCount 9 isRwxDash cs
  let w1 ← munch1 isSpacePCRE perm.2
  let links ← munch1 isDigitC w1.2
  let w2 ← munch1 isSpacePCRE links.2
  let owner ← munch1 isWordC w2.2
  let w3 ← munch1 isSpacePCRE owner.2
  let grp ← munch1 isWordC w3.2
  let w4 ← munch1 isSpacePCRE grp.2
  some (perm.1, links.1, owner.1, grp.1, w4.2)

/-- unixRe fields `(\d+)\s+(\w+\s+\d+\s+[\d:]+)\s+(.+)`: size, the verbatim
date capture, and the name capture. -/
def unixFields2 (s : Str) : Option (Str × Str × Str) := do
  let size ← munch1 isDigitC s
  let w1 ← munch1 isSpacePCRE size.2
  let mon ← munch1 isWordC w1.2
  let sp1 ← munch1 isSpacePCRE mon.2
  let day ← munch1 isDigitC sp1.2
  let sp2 ← munch1 isSpacePCRE day.2
  let tim ← munch1 (fun x => isDigitC x || x = ':') sp2.2
  let name ← wsName tim.2
  some (size.1, mon.1 ++ sp1.1 ++ day.1 ++ sp2.1 ++ tim.1, name)

/-- unixRe matched at a fixed start offset. -/
def unixMatchAt : Str → Option UnixCaps
  | [] => none
  | c :: cs =>
    if c = 'd' || c = '-' then do
      let f1 ← unixFields1 cs
      let f2 ← unixFields2 f1.2.2.2.2
      some ⟨c, f1.1, f1.2.1, f1.2.2.1, f1.2.2.2.1, f2.1, f2.2.1, f2.2.2⟩
    else none

/-- Captures of windowsRe
`(\d{2}-\d{2}-\d{2})\s+(\d{2}:\d{2}[AP]M)\s+(<DIR>|\d+)\s+(.+)`. -/
structure WinCaps where
  date : Str
  time : Str
  sizeTok : Str
  name : Str
deriving Repr, DecidableEq

/-- windowsRe field `(\d{2}-\d{2}-\d{2})`: the date capture and the
remainder. -/
def winDate (s : Str) : Option (Str × Str) := do
  let d1 ← takeCount 2 isDigitC s
  let s2 ← expectChar '-' d1.2
  let d2 ← takeCount 2 isDigitC s2
  let s4 ← expectChar '-' d2.2
  let d3 ← takeCount 2 isDigitC s4
  some (d1.1 ++ "-".data ++ d2.1 ++ "-".data ++ d3.1, d3.2)

/-- windowsRe fragment `\s+(\d{2}:\d{2}[AP]M)`: the time capture and the
remainder. -/
def winTime (s : Str) : Option (Str × Str) := do
  let w ← munch1 isSpacePCRE s
  let h1 ← takeCount 2 isDigitC w.2
  let s8 ← expectChar ':' h1.2
  let h2 ← takeCount 2 isDigitC s8
  let ap ←
    (match h2.2 with
     | a :: rest => if a = 'A' || a = 'P' then some (a, rest) else none
     | [] => none)
  let s11 ← expectChar 'M' ap.2
  some (h1.1 ++ ":".data ++ h2.1 ++ [ap.1, 'M'], s11)

/-- windowsRe matched at a fixed start offset.  The alternation `<DIR>|\d+`
tries the literal first, exactly as PCRE prefers the left alternative. -/
def windowsMatchAt (s : Str) : Option WinCaps := do
  let date ← winDate s
  let time ← winTime date.2
  let w2 ← munch1 isSpacePCRE time.2
  let tok ←
    (match w2.2 with
     | '<' :: 'D' :: 'I' :: 'R' :: '>' :: rest => some ("<DIR>".data, rest)
     | _ => munch1 isDigitC w2.2)
  let name ← wsName tok.2
  some ⟨date.1, time.1, tok.1, name⟩

/-- Captures of simpleRe `([d-])[^\s]+\s+.*\s+(.+)$`. -/
structure SimpleCaps where
  typ : Char
  name : Str
deriving Repr, DecidableEq

/-- The tail `\s+.*\s+(.+)$` of simpleRe, matched against the remainder after
`([d-])[^\s]+`, with PCRE preferences.  Writing the remainder as `w ++ x`
(`w` the maximal whitespace run, `x` starting with non-whitespace): the
greedy `.*` places the final name at the position after the last whitespace
character of `x` that still leaves a character; failing that, the leading
`\s+` gives back its last character to `.*`/`\s+`, making the name all of
`x` (this needs `w` to keep at least one character and `x` nonempty).
When the remainder is all whitespace (`x` empty), the pattern still matches
as soon as three whitespace characters are present — `\s+` keeps `w` minus
two characters, `.*` matches nothing, the second `\s+` keeps one character
and gives the rest back, and `(.+)` captures the final whitespace character
(the emitted name then trims to empty). -/
def simpleTail (s : Str) : Option Str :=
  let w := (s.span isSpacePCRE).1
  let x := (s.span isSpacePCRE).2
  if w = [] then none
  else
    match lastIdxP isSpacePCRE x.dropLast with
    | some d => some (x.drop (d + 1))
    | none =>
      if x.isEmpty then
        if 3 ≤ w.length then
          match lastCh w with
          | some c => some [c]
          | none => none
        else none
      else if 2 ≤ w.length then some x
      else none

/-- simpleRe matched at a fixed start offset. -/
def simpleMatchAt : Str → Option SimpleCaps
  | [] => none
  | c :: cs =>
    if c = 'd' || c = '-' then
      if (cs.span (fun x => !isSpacePCRE x)).1 = [] then none
      else (simpleTail (cs.span (fun x => !isSpacePCRE x)).2).map (fun n => ⟨c, n⟩)
    else none

/-- Unanchored PCRE search: try each start offset left to right. -/
def searchFrom {α : Type} (f : Str → Option α) : Str → Option α
  | [] => f []
  | c :: cs =>
    match f (c :: cs) with
    | some r => some r
    | none => searchFrom f cs

/-- `unixRe.match(line)`. -/
def unixSearch (line : Str) : Option UnixCaps := searchFrom unixMatchAt line

/-- `windowsRe.match(line)`. -/
def windowsSearch (line : Str) : Option WinCaps := searchFrom windowsMatchAt line

/-- `simpleRe.match(line)`. -/
def simpleSearch (line : Str) : Option SimpleCaps := searchFrom simpleMatchAt line

/-- A row of the browse view's `fileModel` as appended by
`MainWindow::parseFtpList` (columns Name, Size, Type, Date). -/
structure BrowseItem where
  name : Str
  size : Str
  typ : Str
  date : Str
deriving Repr, DecidableEq

/-- One line of `MainWindow::parseFtpList` (src/mainwindow.cpp lines
417-505): the four recognizers tried in order, first match wins; the
whitespace-split fallback emits nothing only when the line has no token.
Note that this browse-path decoder has no special-casing of "." or "..". -/
def parseLineBrowse (line : Str) : Option BrowseItem :=
  match unixSearch line with
  | some c =>
    some ⟨removeCR (qtTrim c.name), c.size,
          (if c.typ = 'd' then "Directory".data else "File".data), c.date⟩
  | none =>
    match windowsSearch line with
    | some c =>
      some ⟨removeCR (qtTrim c.name),
            (if c.sizeTok = "<DIR>".data then [] else c.sizeTok),
            (if c.sizeTok = "<DIR>".data then "Directory".data else "File".data),
            c.date ++ [' '] ++ c.time⟩
    | none =>
      match simpleSearch line with
      | some c =>
        some ⟨removeCR (qtTrim c.name), [],
              (if c.typ = 'd' then "Directory".data else "File".data), []⟩
      | none =>
        match (splitWs line).getLast? with
        | some tok =>
          some ⟨removeCR (qtTrim tok), [],
                (if hasDot (removeCR (qtTrim tok)) then "File".data else "Directory".data), []⟩
        | none => none

/-- `MainWindow::parseFtpList` (src/mainwindow.cpp lines 392-509): split the
received text into non-empty lines and append one model row per recognized
line. -/
def parseFtpList (listData : Str) : List BrowseItem :=
  (splitLines listData).filterMap parseLineBrowse

/-- The per-line decoding step of `MainWindow::listDirectoryForDownload`
(src/mainwindow.cpp lines 1092-1159): same four recognizers in the same
order, but every branch skips entries named "." or ".." (`continue`), and
the fallback guesses directory-ness as "name does not contain a dot".
Returns the entry's name, directory flag and parsed size. -/
def parseLineDL (line : Str) : Option (Str × Bool × Int) :=
  match unixSearch line with
  | some c =>
    if removeCR (qtTrim c.name) = ".".data || removeCR (qtTrim c.name) = "..".data then none
    else some (removeCR (qtTrim c.name), c.typ = 'd', qToLL c.size)
  | none =>
    match windowsSearch line with
    | some c =>
      if removeCR (qtTrim c.name) = ".".data || removeCR (qtTrim c.name) = "..".data then none
      else some (removeCR (qtTrim c.name), c.sizeTok = "<DIR>".data,
                 (if c.sizeTok = "<DIR>".data then 0 else qToLL c.sizeTok))
    | none =>
      match simpleSearch line with
      | some c =>
        if removeCR (qtTrim c.name) = ".".data || removeCR (qtTrim c.name) = "..".data then none
        else some (removeCR (qtTrim c.name), c.typ = 'd', 0)
      | none =>
        match (splitWs line).getLast? with
        | some tok =>
          if removeCR (qtTrim tok) = ".".data || removeCR (qtTrim tok) = "..".data then none
          else some (removeCR (qtTrim tok), !hasDot (removeCR (qtTrim tok)), 0)
        | none => none

/-- `if (!normalizedPath.startsWith("/")) normalizedPath = "/" + normalizedPath;` -/
def ensureLeadingSlash (s : Str) : Str :=
  if s.head? = some '/' then s else '/' :: s

/-- `if (!normalizedPath.endsWith("/")) normalizedPath += "/";` -/
def ensureTrailingSlash (s : Str) : Str :=
  if endsWith s '/' then s else s ++ "/".data

/-- The path normalization performed before every directory fetch. -/
def normalizePath (s : Str) : Str := ensureTrailingSlash (ensureLeadingSlash s)

/-- `FtpClient::listDirectory` as seen by the fallback probe (src/ftpclient.cpp
lines 124-190, on a connected client): strip CR from the path, normalize it,
fetch it, and return the accumulated line buffer; a transport error yields an
empty `QStringList`. -/
def ftpListDirectoryLines (tr : Transport) (path : Str) : List Str :=
  match tr (normalizePath (removeCR path)) with
  | none => []
  | some text => splitLines text

/-- The per-line decoding step of `FtpClient::listDirectoryForDownload`
(src/ftpclient.cpp lines 389-463).  It differs from the `MainWindow` planner
in the fallback: instead of the dot heuristic it issues a live
`listDirectory(testPath)` probe against the server and classifies the entry
as a directory iff the probe returns a non-empty listing.  `normalizedPath`
is the (already normalized) directory whose listing `line` came from. -/
def ftpClassify (tr : Transport) (normalizedPath line : Str) : Option (Str × Bool × Int) :=
  match unixSearch line with
  | some c =>
    if removeCR (qtTrim c.name) = ".".data || removeCR (qtTrim c.name) = "..".data then none
    else some (removeCR (qtTrim c.name), c.typ = 'd',
               (if c.typ = 'd' then 0 else qToLL c.size))
  | none =>
    match windowsSearch line with
    | some c =>
      if removeCR (qtTrim c.name) = ".".data || removeCR (qtTrim c.name) = "..".data then none
      else some (removeCR (qtTrim c.name), c.sizeTok = "<DIR>".data,
                 (if c.sizeTok = "<DIR>".data then 0 else qToLL c.sizeTok))
    | none =>
      match simpleSearch line with
      | some c =>
        if removeCR (qtTrim c.name) = ".".data || removeCR (qtTrim c.name) = "..".data then none
        else some (removeCR (qtTrim c.name), c.typ = 'd', 0)
      | none =>
        match (splitWs line).getLast? with
        | some tok =>
          if removeCR (qtTrim tok) = ".".data || removeCR (qtTrim tok) = "..".data then none
          else some (removeCR (qtTrim tok),
                     !(ftpListDirectoryLines tr (normalizedPath ++ removeCR (qtTrim tok))).isEmpty,
                     0)
        | none => none

/-- A `DownloadTask` (src/mainwindow.h): one unit of work of the download
queue. -/
structure DownloadTask where
  remotePath : Str
  localPath : Str
  isDirectory : Bool
  fileSize : Int
  displayName : Str
deriving Repr, DecidableEq

/-- `QFileInfo(remotePath).fileName()`: the part after the last slash. -/
def baseName (s : Str) : Str := (s.reverse.takeWhile (fun c => !(c = '/'))).reverse

/-- The display name chosen by `MainWindow::addDownloadTask`
(src/mainwindow.cpp lines 1195-1217): the supplied name, defaulting to the
basename of the remote path when empty. -/
def addTaskDisplay (remotePath displayName : Str) : Str :=
  if displayName = [] then baseName remotePath else displayName

/-- The entry-processing loop of `MainWindow::listDirectoryForDownload`
(src/mainwindow.cpp lines 1092-1193), parametrized by the recursive call
`child` used for subdirectories.  For each line: decode it with
`parseLineDL`; skip empty names; build the item's remote path (appending a
slash for directories) and local path; for a directory, enqueue a directory
task and recurse into it before continuing with the remaining lines; for a
file, enqueue a file task.  The local `createLocalDirectory` side effect
carries no queue entry. -/
def mwPlanLines (child : Str → Str → List DownloadTask) (P T : Str) :
    List Str → List DownloadTask
  | [] => []
  | line :: rest =>
    match parseLineDL line with
    | none => mwPlanLines child P T rest
    | some (n, dflag, z) =>
      if n = [] then mwPlanLines child P T rest
      else
        if dflag then
          ⟨(if endsWith (P ++ n) '/' then P ++ n else (P ++ n) ++ "/".data),
           T ++ "/".data ++ n, true, 0,
           addTaskDisplay (if endsWith (P ++ n) '/' then P ++ n else (P ++ n) ++ "/".data) n⟩ ::
          (child (if endsWith (P ++ n) '/' then P ++ n else (P ++ n) ++ "/".data)
                 (T ++ "/".data ++ n) ++
           mwPlanLines child P T rest)
        else
          ⟨P ++ n, T ++ "/".data ++ n, false, z, addTaskDisplay (P ++ n) n⟩ ::
          mwPlanLines child P T rest

/-- `MainWindow::listDirectoryForDownload` (src/mainwindow.cpp lines
1015-1193) as the sequence of tasks it enqueues: normalize the path, fetch
its listing (a transport failure contributes no tasks), and process each
line.  `fuel` bounds the recursion depth (the C++ recursion is unbounded;
every statement below is faithful for every fuel value). -/
def mwListDirectoryForDownload (tr : Transport) : Nat → Str → Str → List DownloadTask
  | 0, _, _ => []
  | fuel + 1, path, targetDir =>
    match tr (normalizePath path) with
    | none => []
    | some text =>
      mwPlanLines (mwListDirectoryForDownload tr fuel) (normalizePath path) targetDir
        (splitLines text)

/-- `MainWindow::downloadDirectory` (src/mainwindow.cpp lines 1002-1013):
enqueue the directory task for the root itself, then plan its contents. -/
def mwDownloadDirectory (tr : Transport) (fuel : Nat) (remotePath localPath : Str) :
    List DownloadTask :=
  ⟨remotePath, localPath, true, 0, addTaskDisplay remotePath []⟩ ::
  mwListDirectoryForDownload tr fuel remotePath localPath

/-- `MainWindow::getParentDirectory` (src/mainwindow.cpp lines 212-238;
byte-identical in `FtpClient::getParentDirectory`, src/ftpclient.cpp lines
523-549): root and empty map to root; otherwise chop a trailing slash, find
the last remaining slash, return root when it is at index 0 or absent, else
the text before it with a trailing slash ensured. -/
def getParentDirectory (path : Str) : Str :=
  if path = "/".data || path = [] then "/".data
  else
    (fun workPath =>
      match lastIdxP (fun c => c = '/') workPath with
      | none => "/".data
      | some i =>
        if i = 0 then "/".data
        else
          (fun parentDir =>
            if endsWith parentDir '/' then parentDir else parentDir ++ "/".data)
          (workPath.take i))
    (if endsWith path '/' then path.dropLast else path)

/-- Modelled from the spec (spec.md section 4.4, goUp): given a normalized
path ending in a slash, strip the trailing slash and find the last remaining
slash; if it is at index 0 the parent is the root, otherwise the parent is
the substring up to and including that slash; the root is its own parent. -/
def specParentDirectory (path : Str) : Str :=
  if path = "/".data then "/".data
  else
    match lastIdxP (fun c => c = '/') path.dropLast with
    | none => "/".data
    | some i => if i = 0 then "/".data else path.dropLast.take (i + 1)

/-- The navigation state of `MainWindow`: the current path and the directory
history stack (top of the `QStack` is the list head). -/
structure NavState where
  currentPath : Str
  directoryHistory : List Str
deriving Repr, DecidableEq

/-- The navigation-state effect of `MainWindow::listDirectory` on a
connected session (src/mainwindow.cpp lines 296-384): first the old current
path is pushed onto the history whenever the requested path differs, then
`currentPath` is set to the CR-stripped requested path, and only then is the
transport asked for the listing; the returned flag reports transport
success.  Nothing is rolled back on failure. -/
def listDirectoryNav (tr : Transport) (st : NavState) (path : Str) : NavState × Bool :=
  (fun st2 =>
    match tr (normalizePath (removeCR path)) with
    | none => (st2, false)
    | some _ => (st2, true))
  ⟨removeCR path,
   if path = st.currentPath then st.directoryHistory
   else st.currentPath :: st.directoryHistory⟩

/-- The download-queue state of `MainWindow` touched by the cancel handler:
the pending FIFO, the two activity flags, the open handle of the in-flight
local file, and the local filesystem (association list from path to file
size in bytes). -/
structure QueueState where
  downloadQueue : List DownloadTask
  isDownloading : Bool
  timerActive : Bool
  currentDownloadFile : Option Str
  localDisk : List (Str × Nat)
deriving Repr, DecidableEq

/-- The cancel handler connected to the progress dialog in
`MainWindow::onDownloadButtonClicked` (src/mainwindow.cpp lines 734-745):
close and free the in-flight `QFile` object, clear the download queue, reset
`isDownloading`, stop the timer.  It contains no `QFile::remove` call, so
the local filesystem is untouched. -/
def cancelDownload (st : QueueState) : QueueState :=
  { st with
    currentDownloadFile := none,
    downloadQueue := [],
    isDownloading := false,
    timerActive := false }

/-- The sequence of `m_progressCallback` invocations made by
`FtpClient::DownloadCallback` (src/ftpclient.cpp lines 582-603) during one
transfer, given the byte counts the successive `QFile::write` calls return:
each chunk adds its written count to `m_totalBytesReceived` and invokes the
callback as `(m_totalBytesReceived, m_totalBytesReceived)`.
`FtpClient::downloadFile` resets the accumulator to 0 before the transfer. -/
def downloadCallbackCalls (total : Int) : List Int → List (Int × Int)
  | [] => []
  | w :: ws => (total + w, total + w) :: downloadCallbackCalls (total + w) ws

/-- A concrete two-level remote tree used to exercise the planner (the
scenario of spec.md section 8): `/a/` holds `f.txt` (100 bytes) and a
subdirectory `b/` holding `g.txt` (50 bytes). -/
def trW : Transport := fun p =>
  if p = "/a/".data then
    some "-rw-r--r-- 1 u g 100 Jun 12 12:00 f.txt\ndrwxr-xr-x 2 u g 4096 Jun 12 12:00 b".data
  else if p = "/a/b/".data then
    some "-rw-r--r-- 1 u g 50 Jun 12 12:00 g.txt".data
  else none

/-- A transport on which the fallback probe of `/x/data` finds a listing. -/
def tr7a : Transport := fun p =>
  if p = "/x/".data then some "junk data".data
  else if p = "/x/data/".data then some "stuff".data
  else none

/-- A transport identical to `tr7a` on `/x/` but failing the probe. -/
def tr7b : Transport := fun p =>
  if p = "/x/".data then some "junk data".data else none

/-- A transport that always fails. -/
def trFail : Transport := fun _ => none

/-- A line decoded by the download planners keeps a slash-free name:
auxiliary executable form used to state the transport hypothesis of the
pre-order theorem. -/
def lineNameOK (line : Str) : Bool :=
  match parseLineDL line with
  | some e => decide (¬ '/' ∈ e.1)
  | none => true

/-- Every listing the transport can return decodes to slash-free entry
names (true of every real FTP server: a LIST line's basename has no
path separator). -/
def TransportNamesOK (tr : Transport) : Prop :=
  ∀ p s, tr p = some s → ∀ line ∈ splitLines s, lineNameOK line = true

/-- Paths as normalized by every directory fetch: leading and trailing
slash. -/
def NormPath (P : Str) : Prop := P.head? = some '/' ∧ lastCh P = some '/'

/-- All tasks planned below `P` have remote paths properly extending `P`. -/
def PlanExtends (P : Str) (ts : List DownloadTask) : Prop :=
  ∀ t ∈ ts, ∃ s, s ≠ [] ∧ t.remotePath = P ++ s

/-- Directory tasks carry slash-terminated remote paths. -/
def PlanDirSlash (ts : List DownloadTask) : Prop :=
  ∀ t ∈ ts, t.isDirectory = true → lastCh t.remotePath = some '/'

/-- The pre-order invariant of a plan fragment built below `P`: whenever a
file task `f` occurs (split `pre ++ f :: post`) and `D` is a slash-terminated
remote path strictly between `P` and the file's remote path, a directory
task for `D` already occurs in `pre`. -/
def PlanChain (P : Str) (ts : List DownloadTask) : Prop :=
  ∀ pre f post, ts = pre ++ f :: post → f.isDirectory = false →
    ∀ D : Str, lastCh D = some '/' → (∃ m, m ≠ [] ∧ D = P ++ m) →
      D <+: f.remotePath →
      ∃ d ∈ pre, d.isDirectory = true ∧ d.remotePath = D


/-- No two adjacent slashes anywhere in the path (no empty path
component). -/
def noDoubleSlash : Str → Bool
  | [] => true
  | [_] => true
  | a :: b :: r => !(a = '/' && b = '/') && noDoubleSlash (b :: r)

/-- Head of an append with a nonempty left part. -/
lemma head?_append_left {α : Type} (l m : List α) (h : l ≠ []) :
    (l ++ m).head? = l.head? := by
  cases l with
  | nil => exact absurd rfl h
  | cons a t => rfl

/-- Last character of a snoc. -/
lemma lastCh_concat (l : Str) (c : Char) : lastCh (l ++ [c]) = some c := by
  simp [lastCh]

/-- Last character of an append with a nonempty right part. -/
lemma lastCh_append (l m : Str) (h : m ≠ []) : lastCh (l ++ m) = lastCh m := by
  unfold lastCh
  rw [List.reverse_append]
  exact head?_append_left _ _ (by simpa using h)

/-- A string with a known last character is a snoc. -/
lemma exists_snoc_of_lastCh (s : Str) (c : Char) (h : lastCh s = some c) :
    ∃ q, s = q ++ [c] := by
  cases hs : s.reverse with
  | nil => rw [lastCh, hs] at h; exact absurd h (by simp)
  | cons d r =>
    rw [lastCh, hs] at h
    have hd : d = c := by simpa using h
    refine ⟨r.reverse, ?_⟩
    rw [← List.reverse_reverse s, hs, hd]
    simp

/-- The last character is a member. -/
lemma mem_of_lastCh (s : Str) (c : Char) (h : lastCh s = some c) : c ∈ s := by
  obtain ⟨q, rfl⟩ := exists_snoc_of_lastCh s c h
  simp

/-- Cancelling a common left part of two prefixes. -/
lemma prefix_cancel {P m n : Str} (h : P ++ m <+: P ++ n) : m <+: n := by
  obtain ⟨t, ht⟩ := h
  rw [List.append_assoc] at ht
  exact ⟨t, List.append_cancel_left ht⟩

/-- A nonempty slash-terminated piece inside `n ++ "/"` with slash-free `n`
is all of it. -/
lemma prefix_snoc_forces {m n : Str} {c : Char} (h : m <+: n ++ [c]) (hm : m ≠ [])
    (hlast : lastCh m = some c) (hc : ¬ c ∈ n) : m = n ++ [c] := by
  obtain ⟨t, ht⟩ := h
  cases t with
  | nil => simpa using ht
  | cons x xs =>
    have hlen : m.length ≤ n.length := by
      have hl := congrArg List.length ht
      simp at hl
      omega
    have hmn : m <+: n :=
      List.prefix_of_prefix_length_le ⟨x :: xs, ht⟩ ⟨[c], rfl⟩ hlen
    exact absurd (hmn.subset (mem_of_lastCh m c hlast)) hc

/-- `normalizePath` produces a normalized path. -/
lemma normPath_normalize (s : Str) : NormPath (normalizePath s) := by
  have hlead : (ensureLeadingSlash s).head? = some '/' := by
    unfold ensureLeadingSlash
    split
    · assumption
    · rfl
  have hne : ensureLeadingSlash s ≠ [] := by
    intro hx
    rw [hx] at hlead
    exact absurd hlead (by simp)
  constructor
  · unfold normalizePath ensureTrailingSlash
    split
    · exact hlead
    · rw [head?_append_left _ _ hne]
      exact hlead
  · unfold normalizePath ensureTrailingSlash
    split
    · next hcond => simpa [endsWith] using hcond
    · exact lastCh_concat _ '/'

/-- Normalizing is the identity on already-normalized paths. -/
lemma normalize_of_normPath {P : Str} (h : NormPath P) : normalizePath P = P := by
  obtain ⟨h1, h2⟩ := h
  unfold normalizePath ensureLeadingSlash ensureTrailingSlash
  rw [if_pos h1, if_pos (by simp [endsWith, h2])]

/-- The remote path built for a directory entry (`itemRemotePath` with the
trailing slash ensured) is normalized. -/
lemma normPath_item {P n : Str} (hP : NormPath P) (hn : n ≠ []) :
    NormPath (if endsWith (P ++ n) '/' then P ++ n else (P ++ n) ++ "/".data) := by
  have hPne : P ≠ [] := by
    intro hx
    rw [hx] at hP
    exact absurd hP.1 (by simp)
  have hhead : (P ++ n).head? = some '/' := by
    rw [head?_append_left _ _ hPne]
    exact hP.1
  split
  · next hcond => exact ⟨hhead, by simpa [endsWith] using hcond⟩
  · refine ⟨?_, ?_⟩
    · rw [head?_append_left _ _ (by simp [hPne])]
      exact hhead
    · exact lastCh_concat _ '/'

/-- With a nonempty slash-free name, the directory item path is exactly
`P ++ n ++ "/"`. -/
lemma item_eq_snoc {P n : Str} (hn : n ≠ []) (hslash : ¬ '/' ∈ n) :
    (if endsWith (P ++ n) '/' then P ++ n else (P ++ n) ++ "/".data) =
      P ++ (n ++ ['/']) := by
  have hlast : lastCh (P ++ n) = lastCh n := lastCh_append _ _ hn
  have hcond : endsWith (P ++ n) '/' = false := by
    rw [endsWith, hlast]
    cases hc : lastCh n with
    | none => rfl
    | some c =>
      have : c ∈ n := mem_of_lastCh n c hc
      have hcne : ¬ c = '/' := fun hx => hslash (hx ▸ this)
      simpa using hcne
  rw [if_neg (by simp [hcond]), List.append_assoc]

/-- Every task planned by the per-line loop extends the current path. -/
lemma mwPlanLines_extends (child : Str → Str → List DownloadTask) (P T : Str)
    (hP : NormPath P)
    (hchild : ∀ R L, NormPath R → PlanExtends R (child R L)) :
    ∀ lines, PlanExtends P (mwPlanLines child P T lines) := by
  intro lines
  induction lines with
  | nil => intro t ht; exact absurd ht (by simp [mwPlanLines])
  | cons line rest ih =>
    intro t ht
    rcases hp : parseLineDL line with _ | e
    · simp only [mwPlanLines, hp] at ht
      exact ih t ht
    · obtain ⟨n, dflag, z⟩ := e
      simp only [mwPlanLines, hp] at ht
      by_cases hn : n = []
      · rw [if_pos hn] at ht
        exact ih t ht
      · rw [if_neg hn] at ht
        cases dflag with
        | false =>
          rw [if_neg (by decide)] at ht
          rcases List.mem_cons.mp ht with h | h
          · exact ⟨n, hn, by rw [h]⟩
          · exact ih t h
        | true =>
          rw [if_pos rfl] at ht
          rcases List.mem_cons.mp ht with h | h
          · subst h
            by_cases he : endsWith (P ++ n) '/' = true
            · exact ⟨n, hn, by simp [he]⟩
            · exact ⟨n ++ "/".data, by simp [hn], by simp [he, List.append_assoc]⟩
          · rcases List.mem_append.mp h with h2 | h2
            · have hNE : NormPath (if endsWith (P ++ n) '/' then P ++ n
                  else (P ++ n) ++ "/".data) := normPath_item hP hn
              obtain ⟨s, hs, hrs⟩ := hchild _ _ hNE t h2
              rw [hrs]
              by_cases he : endsWith (P ++ n) '/' = true
              · rw [if_pos he]
                exact ⟨n ++ s, by simp [hn], by rw [List.append_assoc]⟩
              · rw [if_neg he]
                exact ⟨n ++ "/".data ++ s, by simp [hn], by simp [List.append_assoc]⟩
            · exact ih t h2

/-- Directory tasks planned by the per-line loop have slash-terminated
remote paths. -/
lemma mwPlanLines_dirslash (child : Str → Str → List DownloadTask) (P T : Str)
    (hP : NormPath P)
    (hchild : ∀ R L, NormPath R → PlanDirSlash (child R L)) :
    ∀ lines, PlanDirSlash (mwPlanLines child P T lines) := by
  intro lines
  induction lines with
  | nil => intro t ht; exact absurd ht (by simp [mwPlanLines])
  | cons line rest ih =>
    intro t ht hdir
    rcases hp : parseLineDL line with _ | e
    · simp only [mwPlanLines, hp] at ht
      exact ih t ht hdir
    · obtain ⟨n, dflag, z⟩ := e
      simp only [mwPlanLines, hp] at ht
      by_cases hn : n = []
      · rw [if_pos hn] at ht
        exact ih t ht hdir
      · rw [if_neg hn] at ht
        cases dflag with
        | false =>
          rw [if_neg (by decide)] at ht
          rcases List.mem_cons.mp ht with h | h
          · rw [h] at hdir
            exact absurd hdir (by simp)
          · exact ih t h hdir
        | true =>
          rw [if_pos rfl] at ht
          rcases List.mem_cons.mp ht with h | h
          · subst h
            exact (normPath_item hP hn).2
          · rcases List.mem_append.mp h with h2 | h2
            · exact hchild _ _ (normPath_item hP hn) t h2 hdir
            · exact ih t h2 hdir

/-- The pre-order invariant holds for the per-line planning loop: a
directory entry's task is placed in front of everything planned inside it
(the recursion into the child), and sibling fragments keep their own
invariant. -/
lemma mwPlanLines_chain (child : Str → Str → List DownloadTask) (P T : Str)
    (hP : NormPath P)
    (hchild_ext : ∀ R L, NormPath R → PlanExtends R (child R L))
    (hchild_chain : ∀ R L, NormPath R → PlanChain R (child R L)) :
    ∀ lines, (∀ line ∈ lines, lineNameOK line = true) →
      PlanChain P (mwPlanLines child P T lines) := by
  intro lines
  induction lines with
  | nil =>
    intro _ pre f post hsplit
    simp only [mwPlanLines] at hsplit
    exact absurd hsplit (by cases pre <;> simp)
  | cons line rest ih =>
    intro hlines pre f post hsplit hf D hDlast hDex hDpre
    have hl1 : lineNameOK line = true := hlines line (by simp)
    have ihr := ih (fun l hl => hlines l (by simp [hl]))
    obtain ⟨m, hm, hDm⟩ := hDex
    rcases hp : parseLineDL line with _ | e
    · simp only [mwPlanLines, hp] at hsplit
      exact ihr pre f post hsplit hf D hDlast ⟨m, hm, hDm⟩ hDpre
    · obtain ⟨n, dflag, z⟩ := e
      have hslash : ¬ '/' ∈ n := by
        simp only [lineNameOK, hp, decide_eq_true_eq] at hl1
        exact hl1
      simp only [mwPlanLines, hp] at hsplit
      by_cases hn : n = []
      · rw [if_pos hn] at hsplit
        exact ihr pre f post hsplit hf D hDlast ⟨m, hm, hDm⟩ hDpre
      · rw [if_neg hn] at hsplit
        cases dflag with
        | false =>
          rw [if_neg (by decide)] at hsplit
          cases pre with
          | nil =>
            simp only [List.nil_append] at hsplit
            injection hsplit with h1 h2
            have hfr : f.remotePath = P ++ n := by rw [← h1]
            have hmn : m <+: n := by
              refine prefix_cancel (P := P) ?_
              rw [← hDm, ← hfr]
              exact hDpre
            have hml : lastCh m = some '/' := by
              rw [hDm, lastCh_append _ _ hm] at hDlast
              exact hDlast
            exact absurd (hmn.subset (mem_of_lastCh m '/' hml)) hslash
          | cons p0 pre2 =>
            rw [List.cons_append] at hsplit
            injection hsplit with h1 h2
            rcases ihr pre2 f post h2 hf D hDlast ⟨m, hm, hDm⟩ hDpre with ⟨d, hd, hprops⟩
            exact ⟨d, List.mem_cons_of_mem _ hd, hprops⟩
        | true =>
          rw [if_pos rfl] at hsplit
          rw [item_eq_snoc hn hslash] at hsplit
          have hPne : P ≠ [] := fun hx => by
            rw [hx] at hP
            exact absurd hP.1 (by simp)
          have hNE : NormPath (P ++ (n ++ ['/'])) :=
            ⟨by rw [head?_append_left _ _ hPne]; exact hP.1,
             by rw [lastCh_append _ _ (by simp), lastCh_concat]⟩
          cases pre with
          | nil =>
            simp only [List.nil_append] at hsplit
            injection hsplit with h1 h2
            rw [← h1] at hf
            exact absurd hf (by simp)
          | cons p0 pre2 =>
            rw [List.cons_append] at hsplit
            injection hsplit with h1 h2
            rcases List.append_eq_append_iff.mp h2 with ⟨a2, ha1, ha2⟩ | ⟨c2, hc1, hc2⟩
            · rcases ihr a2 f post ha2 hf D hDlast ⟨m, hm, hDm⟩ hDpre with ⟨d, hd, hprops⟩
              refine ⟨d, List.mem_cons_of_mem _ ?_, hprops⟩
              rw [ha1]
              exact List.mem_append_right _ hd
            · cases c2 with
              | nil =>
                rcases ihr [] f post (by simpa using hc2.symm) hf D hDlast
                    ⟨m, hm, hDm⟩ hDpre with ⟨d, hd, _⟩
                exact absurd hd (List.not_mem_nil d)
              | cons f2 c3 =>
                injection hc2 with hf2 hpost
                subst hf2
                have hfmem : f ∈ child (P ++ (n ++ ['/'])) (T ++ "/".data ++ n) := by
                  rw [hc1]
                  exact List.mem_append_right _ (List.mem_cons_self _ _)
                obtain ⟨s, hs, hfr⟩ := hchild_ext _ _ hNE f hfmem
                have hEf : (P ++ (n ++ ['/'])) <+: f.remotePath := ⟨s, hfr.symm⟩
                have hml : lastCh m = some '/' := by
                  rw [hDm, lastCh_append _ _ hm] at hDlast
                  exact hDlast
                rcases List.prefix_or_prefix_of_prefix hDpre hEf with hDE | hED
                · have hmEq : m = n ++ ['/'] :=
                    prefix_snoc_forces (prefix_cancel (hDm ▸ hDE)) hm hml hslash
                  refine ⟨⟨P ++ (n ++ ['/']), T ++ "/".data ++ n, true, 0,
                           addTaskDisplay (P ++ (n ++ ['/'])) n⟩, ?_, rfl, ?_⟩
                  · rw [h1]
                    exact List.mem_cons_self _ _
                  · show P ++ (n ++ ['/']) = D
                    rw [hDm, hmEq]
                · by_cases hDEeq : D = P ++ (n ++ ['/'])
                  · refine ⟨⟨P ++ (n ++ ['/']), T ++ "/".data ++ n, true, 0,
                             addTaskDisplay (P ++ (n ++ ['/'])) n⟩, ?_, rfl, hDEeq.symm⟩
                    rw [h1]
                    exact List.mem_cons_self _ _
                  · obtain ⟨t2, ht2⟩ := hED
                    have ht2ne : t2 ≠ [] := fun hx => hDEeq (by rw [← ht2, hx, List.append_nil])
                    rcases hchild_chain _ _ hNE pre2 f c3 hc1 hf D hDlast
                        ⟨t2, ht2ne, ht2.symm⟩ hDpre with ⟨d, hd, hprops⟩
                    exact ⟨d, List.mem_cons_of_mem _ hd, hprops⟩

/-- Every task planned for a directory extends that directory's normalized
path. -/
lemma mwLDD_extends (tr : Transport) :
    ∀ fuel path T, PlanExtends (normalizePath path)
      (mwListDirectoryForDownload tr fuel path T) := by
  intro fuel
  induction fuel with
  | zero => intro path T t ht; exact absurd ht (by simp [mwListDirectoryForDownload])
  | succ fuel ih =>
    intro path T t ht
    simp only [mwListDirectoryForDownload] at ht
    rcases htr : tr (normalizePath path) with _ | text
    · rw [htr] at ht
      exact absurd ht (by simp)
    · rw [htr] at ht
      refine mwPlanLines_extends _ _ _ (normPath_normalize path) ?_ _ t ht
      intro R L hR
      have := ih R L
      rwa [normalize_of_normPath hR] at this

/-- Directory tasks in a plan have slash-terminated remote paths. -/
lemma mwLDD_dirslash (tr : Transport) :
    ∀ fuel path T, PlanDirSlash (mwListDirectoryForDownload tr fuel path T) := by
  intro fuel
  induction fuel with
  | zero => intro path T t ht; exact absurd ht (by simp [mwListDirectoryForDownload])
  | succ fuel ih =>
    intro path T t ht
    simp only [mwListDirectoryForDownload] at ht
    rcases htr : tr (normalizePath path) with _ | text
    · rw [htr] at ht
      exact absurd ht (by simp)
    · rw [htr] at ht
      exact mwPlanLines_dirslash _ _ _ (normPath_normalize path)
        (fun R L hR => ih R L) _ t ht

/-- The pre-order invariant holds for a whole directory plan, for every
transport whose listings decode to slash-free names. -/
lemma mwLDD_chain (tr : Transport) (htr : TransportNamesOK tr) :
    ∀ fuel path T, PlanChain (normalizePath path)
      (mwListDirectoryForDownload tr fuel path T) := by
  intro fuel
  induction fuel with
  | zero =>
    intro path T pre f post hsplit
    simp only [mwListDirectoryForDownload] at hsplit
    exact absurd hsplit (by cases pre <;> simp)
  | succ fuel ih =>
    intro path T
    simp only [mwListDirectoryForDownload]
    rcases htt : tr (normalizePath path) with _ | text
    · intro pre f post hsplit
      exact absurd hsplit (by cases pre <;> simp)
    · refine mwPlanLines_chain _ _ _ (normPath_normalize path) ?_ ?_ _
        (htr _ _ htt)
      · intro R L hR
        have := mwLDD_extends tr fuel R L
        rwa [normalize_of_normPath hR] at this
      · intro R L hR
        have := ih R L
        rwa [normalize_of_normPath hR] at this

/-- C2: for every planned download tree produced by
`MainWindow::downloadDirectory` (the recursive directory-download planner),
and for every file task `f` whose remote path is nested under a directory
task's remote path `D`, a directory task for `D` occurs strictly before `f`
in the accumulated task sequence — the planner enqueues each directory task
and then recurses into that directory before continuing with its siblings
(depth-first pre-order).  Hypotheses: the requested root is normalized
(leading and trailing slash, as `onDownloadButtonClicked` guarantees), and
the transport's listings decode to slash-free entry names (true of FTP
LIST output, whose basenames cannot contain the path separator). -/
theorem C2_preorder (tr : Transport) (fuel : Nat) (R L : Str)
    (hR : NormPath R) (htr : TransportNamesOK tr)
    (pre : List DownloadTask) (f : DownloadTask) (post : List DownloadTask)
    (hsplit : mwDownloadDirectory tr fuel R L = pre ++ f :: post)
    (hf : f.isDirectory = false)
    (d : DownloadTask) (hd : d ∈ mwDownloadDirectory tr fuel R L)
    (hdd : d.isDirectory = true)
    (hnest : d.remotePath <+: f.remotePath) :
    ∃ p ∈ pre, p.isDirectory = true ∧ p.remotePath = d.remotePath := by
  rw [mwDownloadDirectory] at hsplit hd
  cases pre with
  | nil =>
    simp only [List.nil_append] at hsplit
    injection hsplit with h1 h2
    rw [← h1] at hf
    exact absurd hf (by simp)
  | cons p0 pre2 =>
    rw [List.cons_append] at hsplit
    injection hsplit with h1 h2
    rcases List.mem_cons.mp hd with hroot | hbody
    · refine ⟨p0, List.mem_cons_self _ _, ?_, ?_⟩
      · rw [← h1]
      · rw [← h1, hroot]
    · have hext := mwLDD_extends tr fuel R L d hbody
      rw [normalize_of_normPath hR] at hext
      obtain ⟨m, hm, hDm⟩ := hext
      have hlast := mwLDD_dirslash tr fuel R L d hbody hdd
      have hchain := mwLDD_chain tr htr fuel R L
      rw [normalize_of_normPath hR] at hchain
      rcases hchain pre2 f post h2 hf d.remotePath hlast ⟨m, hm, hDm⟩ hnest
        with ⟨p, hp, hprops⟩
      exact ⟨p, List.mem_cons_of_mem _ hp, hprops⟩

/-- The scenario transport decodes every line to a slash-free name. -/
lemma trW_namesOK : TransportNamesOK trW := by
  intro p s h
  unfold trW at h
  split_ifs at h with h1 h2 <;>
    first
    | (injection h with h3; subst h3; decide)
    | exact absurd h (by simp)

theorem C2_witness :
    ∃ p ∈ ([⟨"/a/".data, "/out".data, true, 0, ([] : Str)⟩,
            ⟨"/a/f.txt".data, "/out/f.txt".data, false, 100, "f.txt".data⟩,
            ⟨"/a/b/".data, "/out/b".data, true, 0, "b".data⟩] : List DownloadTask),
      p.isDirectory = true ∧
      p.remotePath = (⟨"/a/b/".data, "/out/b".data, true, 0, "b".data⟩ : DownloadTask).remotePath :=
  C2_preorder trW 3 "/a/".data "/out".data ⟨by decide, by decide⟩ trW_namesOK
    [⟨"/a/".data, "/out".data, true, 0, ([] : Str)⟩,
     ⟨"/a/f.txt".data, "/out/f.txt".data, false, 100, "f.txt".data⟩,
     ⟨"/a/b/".data, "/out/b".data, true, 0, "b".data⟩]
    ⟨"/a/b/g.txt".data, "/out/b/g.txt".data, false, 50, "g.txt".data⟩ []
    (by decide) (by decide)
    ⟨"/a/b/".data, "/out/b".data, true, 0, "b".data⟩
    (by decide) (by decide) (by decide)

/-- Each branch of the MainWindow planner's per-line decoder skips "." and
"..". -/
lemma parseLineDL_not_special (line : Str) (e : Str × Bool × Int)
    (h : parseLineDL line = some e) : e.1 ≠ ".".data ∧ e.1 ≠ "..".data := by
  unfold parseLineDL at h
  rcases hu : unixSearch line with _ | cu <;> simp only [hu] at h
  · rcases hw : windowsSearch line with _ | cw <;> simp only [hw] at h
    · rcases hs : simpleSearch line with _ | cs <;> simp only [hs] at h
      · rcases hl : (splitWs line).getLast? with _ | tok <;> simp only [hl] at h
        · exact absurd h (by simp)
        · split_ifs at h with hsp <;>
            first
            | (injection h with h2; subst h2; simpa using hsp)
            | exact absurd h (by simp)
      · split_ifs at h with hsp <;>
          first
          | (injection h with h2; subst h2; simpa using hsp)
          | exact absurd h (by simp)
    · split_ifs at h with hsp <;>
        first
        | (injection h with h2; subst h2; simpa using hsp)
        | exact absurd h (by simp)
  · split_ifs at h with hsp <;>
      first
      | (injection h with h2; subst h2; simpa using hsp)
      | exact absurd h (by simp)

/-- Each branch of the FtpClient planner's per-line decoder skips "." and
"..". -/
lemma ftpClassify_not_special (tr : Transport) (P line : Str) (e : Str × Bool × Int)
    (h : ftpClassify tr P line = some e) : e.1 ≠ ".".data ∧ e.1 ≠ "..".data := by
  unfold ftpClassify at h
  rcases hu : unixSearch line with _ | cu <;> simp only [hu] at h
  · rcases hw : windowsSearch line with _ | cw <;> simp only [hw] at h
    · rcases hs : simpleSearch line with _ | cs <;> simp only [hs] at h
      · rcases hl : (splitWs line).getLast? with _ | tok <;> simp only [hl] at h
        · exact absurd h (by simp)
        · split_ifs at h with hsp <;>
            first
            | (injection h with h2; subst h2; simpa using hsp)
            | exact absurd h (by simp)
      · split_ifs at h with hsp <;>
          first
          | (injection h with h2; subst h2; simpa using hsp)
          | exact absurd h (by simp)
    · split_ifs at h with hsp <;>
        first
        | (injection h with h2; subst h2; simpa using hsp)
        | exact absurd h (by simp)
  · split_ifs at h with hsp <;>
      first
      | (injection h with h2; subst h2; simpa using hsp)
      | exact absurd h (by simp)

/-- C1 (amended): the "." and ".." filter lives in the two download-planning
decoders — the sequence of entries produced by
`MainWindow::listDirectoryForDownload` over any listing text, and every
entry produced by `FtpClient::listDirectoryForDownload`, never carries the
name "." or "..".  (The live-browse parse `MainWindow::parseFtpList` has no
such filter; see the counterexample.) -/
theorem C1_download_decoders_skip_special :
    (∀ listData : Str, ∀ e ∈ (splitLines listData).filterMap parseLineDL,
      e.1 ≠ ".".data ∧ e.1 ≠ "..".data) ∧
    (∀ tr : Transport, ∀ P line : Str, ∀ e : Str × Bool × Int,
      ftpClassify tr P line = some e → e.1 ≠ ".".data ∧ e.1 ≠ "..".data) := by
  constructor
  · intro listData e he
    obtain ⟨line, _, hline⟩ := List.mem_filterMap.mp he
    exact parseLineDL_not_special line e hline
  · intro tr P line e he
    exact ftpClassify_not_special tr P line e he

theorem C1_witness :
    ("sub".data, true, (4096 : Int)) ∈
      (splitLines "drwxr-xr-x 2 u g 4096 Jun 12 12:00 sub".data).filterMap parseLineDL ∧
    (("sub".data, true, (4096 : Int)).1 ≠ ".".data ∧
     ("sub".data, true, (4096 : Int)).1 ≠ "..".data) :=
  ⟨by decide,
   C1_download_decoders_skip_special.1
     "drwxr-xr-x 2 u g 4096 Jun 12 12:00 sub".data
     ("sub".data, true, (4096 : Int)) (by decide)⟩

theorem C1_counterexample :
    parseFtpList "drwxr-xr-x 2 root root 4096 Jun 12 12:00 .".data =
      [⟨".".data, "4096".data, "Directory".data, "Jun 12 12:00".data⟩] := by
  decide

/-- C9: every invocation of the registered progress callback made by
`FtpClient::DownloadCallback` passes the accumulated received-byte count as
both arguments — `bytesTotal` always equals `bytesReceived`, so the second
argument never reports the true file size and any percentage computed from
the pair is 100%. -/
theorem C9_progress_args_equal (t : Int) (ws : List Int) (p : Int × Int)
    (hp : p ∈ downloadCallbackCalls t ws) : p.1 = p.2 := by
  induction ws generalizing t with
  | nil => exact absurd hp (by simp [downloadCallbackCalls])
  | cons w ws ih =>
    rcases List.mem_cons.mp hp with h | h
    · rw [h]
    · exact ih _ h

theorem C9_witness :
    ((5 : Int), (5 : Int)) ∈ downloadCallbackCalls 0 [2, 3] ∧
    (((5 : Int), (5 : Int)).1 = ((5 : Int), (5 : Int)).2) :=
  ⟨by decide, C9_progress_args_equal 0 [2, 3] (5, 5) (by decide)⟩

/-- C5 (amended): the cancel handler clears the remaining FIFO, resets the
downloading flag, stops the queue timer and frees the in-flight file handle,
but it never deletes the partial file from disk — the local filesystem is
left exactly as it was (the handler has no `QFile::remove`). -/
theorem C5_cancel_effects (st : QueueState) :
    (cancelDownload st).downloadQueue = [] ∧
    (cancelDownload st).isDownloading = false ∧
    (cancelDownload st).timerActive = false ∧
    (cancelDownload st).currentDownloadFile = none ∧
    (cancelDownload st).localDisk = st.localDisk :=
  ⟨rfl, rfl, rfl, rfl, rfl⟩

theorem C5_counterexample :
    ((cancelDownload
        ⟨[⟨"/r/g.txt".data, "/out/g.txt".data, false, 9, "g.txt".data⟩],
         true, true, some "/out/f.txt".data,
         [("/out/f.txt".data, 5)]⟩).localDisk.lookup "/out/f.txt".data = some 5) ∧
    (5 : Nat) ≠ 0 := by
  decide

/-- C3 (amended): on a failed listing the navigation state has already been
updated — `MainWindow::listDirectory` pushes the old current path onto the
history (when the requested path differs) and overwrites `currentPath`
before the transport call, and rolls nothing back when the transport
fails. -/
theorem C3_failed_listing_state (tr : Transport) (st : NavState) (path : Str)
    (hfail : tr (normalizePath (removeCR path)) = none) :
    (listDirectoryNav tr st path).2 = false ∧
    (listDirectoryNav tr st path).1.currentPath = removeCR path ∧
    (listDirectoryNav tr st path).1.directoryHistory =
      (if path = st.currentPath then st.directoryHistory
       else st.currentPath :: st.directoryHistory) := by
  refine ⟨?_, ?_, ?_⟩ <;> simp [listDirectoryNav, hfail]

theorem C3_witness :
    (listDirectoryNav trFail ⟨"/".data, []⟩ "/a/".data).2 = false ∧
    (listDirectoryNav trFail ⟨"/".data, []⟩ "/a/".data).1.currentPath =
      removeCR "/a/".data ∧
    (listDirectoryNav trFail ⟨"/".data, []⟩ "/a/".data).1.directoryHistory =
      (if "/a/".data = (⟨"/".data, []⟩ : NavState).currentPath
       then (⟨"/".data, []⟩ : NavState).directoryHistory
       else (⟨"/".data, []⟩ : NavState).currentPath ::
            (⟨"/".data, []⟩ : NavState).directoryHistory) :=
  C3_failed_listing_state trFail ⟨"/".data, []⟩ "/a/".data (by decide)

theorem C3_counterexample :
    (listDirectoryNav trFail ⟨"/".data, []⟩ "/a/".data).2 = false ∧
    (listDirectoryNav trFail ⟨"/".data, []⟩ "/a/".data).1 ≠ ⟨"/".data, []⟩ := by
  decide

/-- C7 (amended): `parse(lines) = parse(lines)` holds for both parsing
paths, and each embedded decoder is a function of its stated inputs; but
the `FtpClient` planning path's input includes the transport (its fallback
issues a live probe), not the lines alone — see the counterexample. -/
theorem C7_parse_determinism :
    (∀ l : Str, parseFtpList l = parseFtpList l) ∧
    (∀ l : Str, (splitLines l).filterMap parseLineDL =
      (splitLines l).filterMap parseLineDL) ∧
    (∀ tr : Transport, ∀ P line : Str,
      ftpClassify tr P line = ftpClassify tr P line) :=
  ⟨fun _ => rfl, fun _ => rfl, fun _ _ _ => rfl⟩

theorem C7_counterexample :
    tr7a "/x/".data = tr7b "/x/".data ∧
    ftpClassify tr7a "/x/".data "junk data".data = some ("data".data, true, 0) ∧
    ftpClassify tr7b "/x/".data "junk data".data = some ("data".data, false, 0) := by
  decide

/-- C4: the recognizers are tried in fixed priority order per line and the
first match wins — whenever unixRe matches a line (in particular when the
whitespace-split fallback would also accept it), `MainWindow::parseFtpList`
emits exactly the entry built from the unixRe captures; the lower-priority
recognizers are never consulted. -/
theorem C4_unix_rule_wins (line : Str) (c : UnixCaps)
    (h : unixSearch line = some c) :
    parseLineBrowse line =
      some ⟨removeCR (qtTrim c.name), c.size,
            (if c.typ = 'd' then "Directory".data else "File".data), c.date⟩ := by
  simp only [parseLineBrowse, h]

theorem C4_witness :
    splitWs "-rw-r--r-- 1 root root 42 Jun 12 12:00 README".data ≠ [] ∧
    parseLineBrowse "-rw-r--r-- 1 root root 42 Jun 12 12:00 README".data =
      some ⟨"README".data, "42".data, "File".data, "Jun 12 12:00".data⟩ := by
  refine ⟨by decide, ?_⟩
  rw [C4_unix_rule_wins _
    ⟨'-', "rw-r--r--".data, "1".data, "root".data, "root".data, "42".data,
     "Jun 12 12:00".data, "README".data⟩ (by decide)]
  decide

/-- C8 (amended): for every listing line the live-browse decoder and the
`MainWindow` planning decoder assign the same name and the same
directory/file classification — in particular the fallback's dot heuristic
is shared by those two paths.  (`FtpClient`'s planning fallback instead
probes the server and can disagree with the browse display; see the
counterexample.) -/
theorem C8_browse_planner_agree (line : Str) (e : Str × Bool × Int)
    (h : parseLineDL line = some e) :
    ∃ item : BrowseItem, parseLineBrowse line = some item ∧
      item.name = e.1 ∧
      item.typ = (if e.2.1 then "Directory".data else "File".data) := by
  unfold parseLineDL at h
  rcases hu : unixSearch line with _ | cu <;> simp only [hu] at h
  · rcases hw : windowsSearch line with _ | cw <;> simp only [hw] at h
    · rcases hs : simpleSearch line with _ | cs <;> simp only [hs] at h
      · rcases hl : (splitWs line).getLast? with _ | tok <;> simp only [hl] at h
        · exact absurd h (by simp)
        · simp only [parseLineBrowse, hu, hw, hs, hl]
          split_ifs at h with hsp <;>
            first
            | (injection h with h2; subst h2;
               exact ⟨_, rfl, rfl, by
                 cases hdd : hasDot (removeCR (qtTrim tok)) <;> simp [hdd]⟩)
            | exact absurd h (by simp)
      · simp only [parseLineBrowse, hu, hw, hs]
        split_ifs at h with hsp <;>
          first
          | (injection h with h2; subst h2;
             exact ⟨_, rfl, rfl, by
               by_cases hc : cs.typ = 'd' <;> simp [hc]⟩)
          | exact absurd h (by simp)
    · simp only [parseLineBrowse, hu, hw]
      split_ifs at h with hsp <;>
        first
        | (injection h with h2; subst h2;
           exact ⟨_, rfl, rfl, by
             by_cases hc : cw.sizeTok = "<DIR>".data <;> simp [hc]⟩)
        | exact absurd h (by simp)
  · simp only [parseLineBrowse, hu]
    split_ifs at h with hsp <;>
      first
      | (injection h with h2; subst h2;
         exact ⟨_, rfl, rfl, by
           by_cases hc : cu.typ = 'd' <;> simp [hc]⟩)
      | exact absurd h (by simp)

theorem C8_witness :
    ∃ item : BrowseItem, parseLineBrowse "junk data".data = some item ∧
      item.name = ("data".data, true, (0 : Int)).1 ∧
      item.typ = (if ("data".data, true, (0 : Int)).2.1
                  then "Directory".data else "File".data) :=
  C8_browse_planner_agree "junk data".data ("data".data, true, 0) (by decide)

theorem C8_counterexample :
    parseLineBrowse "junk data".data =
      some ⟨"data".data, [], "Directory".data, []⟩ ∧
    ftpClassify tr7b "/x/".data "junk data".data =
      some ("data".data, false, 0) := by
  decide

/-- The splitting auxiliary never returns the empty list of pieces. -/
lemma splitAux_ne_nil (p : Char → Bool) (s : Str) : splitAux p s ≠ [] := by
  induction s with
  | nil => simp [splitAux]
  | cons c cs ih =>
    simp only [splitAux]
    split_ifs
    · simp
    · cases hsa : splitAux p cs <;> simp

/-- A line holding at least one non-whitespace character splits into at
least one token. -/
lemma splitWs_ne_nil (s : Str) (h : ∃ c ∈ s, isSpacePCRE c = false) :
    splitWs s ≠ [] := by
  induction s with
  | nil =>
    obtain ⟨c, hc, _⟩ := h
    exact absurd hc (by simp)
  | cons c cs ih =>
    by_cases hp : isSpacePCRE c = true
    · have hss : splitWs (c :: cs) = splitWs cs := by
        simp [splitWs, splitAux, hp]
      rw [hss]
      apply ih
      obtain ⟨d, hd, hdp⟩ := h
      rcases List.mem_cons.mp hd with rfl | hd2
      · rw [hp] at hdp
        exact absurd hdp (by simp)
      · exact ⟨d, hd2, hdp⟩
    · simp only [splitWs, splitAux]
      rw [if_neg hp]
      cases hsa : splitAux isSpacePCRE cs with
      | nil => exact absurd hsa (splitAux_ne_nil _ _)
      | cons t ts => simp

/-- A nonempty list has a last element. -/
lemma getLast?_some_of_ne_nil {α : Type} (l : List α) (h : l ≠ []) :
    ∃ a, l.getLast? = some a := by
  cases l with
  | nil => exact absurd rfl h
  | cons a t =>
    cases hq : (a :: t).getLast? with
    | some b => exact ⟨b, rfl⟩
    | none => exact absurd hq (by simp)

/-- C10 (amended): a listing line containing at least one non-whitespace
character that matches none of the three regex recognizers is never
dropped by the browse parse — the whitespace-split fallback emits exactly
one entry whose name is the (trimmed, CR-stripped) last token, classified
as a file iff that name contains a dot.  (A non-empty but all-whitespace
line, by contrast, is dropped; see the counterexample.) -/
theorem C10_fallback_emits (line : Str)
    (hc : ∃ c ∈ line, isSpacePCRE c = false)
    (h1 : unixSearch line = none) (h2 : windowsSearch line = none)
    (h3 : simpleSearch line = none) :
    ∃ tok, (splitWs line).getLast? = some tok ∧
      parseLineBrowse line =
        some ⟨removeCR (qtTrim tok), [],
              (if hasDot (removeCR (qtTrim tok)) then "File".data
               else "Directory".data), []⟩ := by
  obtain ⟨tok, htok⟩ := getLast?_some_of_ne_nil _ (splitWs_ne_nil line hc)
  refine ⟨tok, htok, ?_⟩
  simp only [parseLineBrowse, h1, h2, h3, htok]

theorem C10_witness :
    ∃ tok, (splitWs "server banner text".data).getLast? = some tok ∧
      parseLineBrowse "server banner text".data =
        some ⟨removeCR (qtTrim tok), [],
              (if hasDot (removeCR (qtTrim tok)) then "File".data
               else "Directory".data), []⟩ :=
  C10_fallback_emits "server banner text".data
    ⟨'s', by decide, by decide⟩ (by decide) (by decide) (by decide)

theorem C10_counterexample :
    " ".data ≠ [] ∧
    unixSearch " ".data = none ∧ windowsSearch " ".data = none ∧
    simpleSearch " ".data = none ∧
    parseLineBrowse " ".data = none ∧ parseFtpList " ".data = [] := by
  decide

/-- When a predicate has no last hit, it holds nowhere. -/
lemma lastIdxP_none (p : Char → Bool) (s : Str) (h : lastIdxP p s = none) :
    ∀ c ∈ s, p c = false := by
  induction s with
  | nil => intro c hc; exact absurd hc (by simp)
  | cons c0 cs ih =>
    simp only [lastIdxP] at h
    cases hr : lastIdxP p cs with
    | some j =>
      rw [hr] at h
      exact absurd h (by simp)
    | none =>
      simp only [hr] at h
      split_ifs at h with hp0
      intro c hc
      rcases List.mem_cons.mp hc with rfl | hc2
      · simpa using hp0
      · exact ih hr c hc2

/-- Decomposition at the last hit of a predicate. -/
lemma lastIdxP_spec (p : Char → Bool) (s : Str) (i : Nat)
    (h : lastIdxP p s = some i) :
    ∃ a c b, s = a ++ c :: b ∧ p c = true ∧ (∀ x ∈ b, p x = false) ∧
      a.length = i := by
  induction s generalizing i with
  | nil => exact absurd h (by simp [lastIdxP])
  | cons c0 cs ih =>
    simp only [lastIdxP] at h
    cases hr : lastIdxP p cs with
    | some j =>
      simp only [hr] at h
      injection h with h2
      obtain ⟨a, c, b, hs, hp, hb, ha⟩ := ih j hr
      exact ⟨c0 :: a, c, b, by rw [hs, List.cons_append], hp, hb, by simp [ha, ← h2]⟩
    | none =>
      simp only [hr] at h
      split_ifs at h with hp0
      injection h with h2
      exact ⟨[], c0, cs, rfl, hp0, lastIdxP_none p cs hr, by simp [← h2]⟩

/-- Inside a path without double slashes, the text before a slash does not
itself end in a slash. -/
lemma noDoubleSlash_before (u v : Str)
    (h : noDoubleSlash (u ++ '/' :: v) = true) : lastCh u ≠ some '/' := by
  induction u with
  | nil => simp [lastCh]
  | cons c cs ih =>
    cases cs with
    | nil =>
      simp only [List.cons_append, List.nil_append, noDoubleSlash,
        Bool.and_eq_true] at h
      intro hx
      have hc : c = '/' := by simpa [lastCh] using hx
      subst hc
      simp at h
    | cons d ds =>
      simp only [List.cons_append, noDoubleSlash, Bool.and_eq_true] at h
      have h2 := ih (by simpa using h.2)
      rw [show (c :: d :: ds : Str) = [c] ++ (d :: ds) from rfl,
        lastCh_append _ _ (by simp)]
      exact h2

/-- C6: the parent-path computation maps "/a/b/c/" to "/a/b/", "/a/" to "/",
and "/" to itself; and on every normalized path (leading slash, trailing
slash) without empty components it agrees with the rule stated by the spec
(strip the trailing slash, find the last remaining slash, root when it is at
index 0, else the substring up to and including it; the root is its own
parent).  On paths with empty components the two differ — see the
counterexample. -/
theorem C6_parent_directory :
    getParentDirectory "/a/b/c/".data = "/a/b/".data ∧
    getParentDirectory "/a/".data = "/".data ∧
    getParentDirectory "/".data = "/".data ∧
    ∀ path : Str, path.head? = some '/' → lastCh path = some '/' →
      noDoubleSlash path = true →
      getParentDirectory path = specParentDirectory path := by
  refine ⟨by decide, by decide, by decide, ?_⟩
  intro path hh hl hnd
  by_cases hroot : path = "/".data
  · subst hroot
    decide
  · have hne : path ≠ [] := by
      intro hx
      rw [hx] at hh
      exact absurd hh (by simp)
    obtain ⟨q, rfl⟩ := exists_snoc_of_lastCh path '/' hl
    have hq : q ≠ [] := by
      intro hx
      rw [hx] at hroot
      exact hroot (by decide)
    have hEnds : endsWith (q ++ ['/']) '/' = true := by
      simp [endsWith, lastCh_concat]
    simp only [getParentDirectory, specParentDirectory]
    rw [if_neg (by simp [hroot]), if_neg hroot]
    simp only [hEnds, if_true, eq_self_iff_true, List.dropLast_concat]
    cases hi : lastIdxP (fun c => decide (c = '/')) q with
    | none => rfl
    | some i =>
      obtain ⟨a, c, b, hq_eq, hpc, hbno, hlen⟩ := lastIdxP_spec _ q i hi
      have hc : c = '/' := by simpa using hpc
      subst hc
      by_cases hi0 : i = 0
      · simp [hi0]
      · simp only [if_neg hi0]
        have htake : q.take i = a := by
          rw [hq_eq, ← hlen]
          exact List.take_left a _
        have hane : a ≠ [] := by
          intro hx
          rw [hx] at hlen
          exact hi0 hlen.symm
        have hnod : lastCh a ≠ some '/' := by
          apply noDoubleSlash_before a (b ++ ['/'])
          rw [hq_eq] at hnd
          rw [List.append_assoc, List.cons_append] at hnd
          exact hnd
        have hEndsA : endsWith a '/' = false := by
          cases hla : lastCh a with
          | none => simp [endsWith, hla]
          | some d =>
            have hd : ¬ d = '/' := fun hx => hnod (by rw [hla, hx])
            simp [endsWith, hla, hd]
        have htake1 : q.take (i + 1) = a ++ ['/'] := by
          rw [hq_eq]
          rw [show a ++ '/' :: b = (a ++ ['/']) ++ b by simp]
          rw [show i + 1 = (a ++ ['/']).length by simp [hlen]]
          exact List.take_left _ _
        rw [htake, htake1, if_neg (by simp [hEndsA])]

theorem C6_witness :
    getParentDirectory "/home/u/".data = specParentDirectory "/home/u/".data :=
  C6_parent_directory.2.2.2 "/home/u/".data (by decide) (by decide) (by decide)

theorem C6_counterexample :
    getParentDirectory "//a/".data = "/".data ∧
    specParentDirectory "//a/".data = "//".data ∧
    getParentDirectory "//a/".data ≠ specParentDirectory "//a/".data := by
  decide

-- Scenario checks of spec.md section 8 on the embedded decoders.
example : parseLineBrowse "drwxr-xr-x 2 root root 4096 Jun 12 12:00 uploads".data =
    some ⟨"uploads".data, "4096".data, "Directory".data, "Jun 12 12:00".data⟩ := by
  decide

example : parseLineBrowse "06-12-23 12:00PM <DIR> photos".data =
    some ⟨"photos".data, [], "Directory".data, "06-12-23 12:00PM".data⟩ := by
  decide

example : parseLineBrowse "06-12-23 12:00PM 2048 readme.txt".data =
    some ⟨"readme.txt".data, "2048".data, "File".data, "06-12-23 12:00PM".data⟩ := by
  decide

example : mwDownloadDirectory trW 3 "/a/".data "/out".data =
    [⟨"/a/".data, "/out".data, true, 0, ([] : Str)⟩,
     ⟨"/a/f.txt".data, "/out/f.txt".data, false, 100, "f.txt".data⟩,
     ⟨"/a/b/".data, "/out/b".data, true, 0, "b".data⟩,
     ⟨"/a/b/g.txt".data, "/out/b/g.txt".data, false, 50, "g.txt".data⟩] := by
  decide
